import Mathlib

/-!
Verification of the `rouge` repository (pure-python ROUGE-N implementation).

Shallow embedding of `src/rouge/utils/tokenize.py` (class `Rouge155Tokenizer`)
and `src/rouge/rouge.py` (class `Rouge`).  Python strings are Lean `String`s
(sequences of unicode scalar values); Python `float` score arithmetic is
idealized as `ℚ`; fallible operations (a `UnicodeDecodeError` in byte
truncation, a `ZeroDivisionError` in scoring) are modelled with `Option`,
`none` meaning the Python code raises.
-/

namespace RougeModel

/-- A tokenized text: list of sentences, each a list of tokens.
Models the `List[List[str]]` produced by `BaseTokenizer.tokenize_text`. -/
abbrev Doc := List (List String)

/-! ## Tokenizer (`src/rouge/utils/tokenize.py`) -/

/-- Configuration and strategy functions of `Rouge155Tokenizer.__init__`.
`stem` models the `self.stem` field: `none` when stemming is disabled,
otherwise the stemming function built from nltk's Porter stemmer plus the
WordNet exception tables (external data, kept abstract here).
`remove_stopwords` models `self.remove_stopwords`: `none` when disabled,
otherwise membership in the stopword dictionary loaded from
`smart_common_words.txt` (the Python lambda returns `None` on members and
the word itself otherwise).  `split_sentences` models the `self.split_sentences`
function field chosen by `_get_sentence_splitter`. -/
structure Rouge155Tokenizer where
  byte_limit : Nat
  word_limit : Nat
  stem : Option (String → String)
  remove_stopwords : Option (String → Bool)
  split_sentences : String → List String

/-- The `SPL` sentence splitter: `lambda x: x.split("\n")`.
Python `str.split("\n")` cuts at every newline and keeps empty pieces. -/
def splitSPL (s : String) : List String :=
  (s.data.splitOnP (fun c => c = '\n')).map String.mk

/-- Characters kept by the filter `re.sub(r"[^A-Za-z0-9\-]", " ", text)`. -/
def isKeepChar (c : Char) : Bool :=
  ('A' ≤ c && c ≤ 'Z') || ('a' ≤ c && c ≤ 'z') || ('0' ≤ c && c ≤ '9') || c = '-'

/-- Python regex `\s` over the characters reachable here.  `_preprocess_text`
applies its whitespace substitutions after every character outside
`[A-Za-z0-9\- ]` has already been replaced by a space, so matching the ASCII
whitespace class is exact at every use site. -/
def isPySpace (c : Char) : Bool :=
  c = ' ' || c = '\t' || c = '\n' || c = '\x0b' || c = '\x0c' || c = '\r'

/-- Collapse every run of whitespace to a single `' '`
(`re.sub(r"\s+", " ", text)`): the flag records whether the previous
character belonged to a whitespace run already emitted as one `' '`. -/
def collapseSpacesAux : Bool → List Char → List Char
  | _, [] => []
  | prevSpace, c :: cs =>
    if isPySpace c then
      if prevSpace then collapseSpacesAux true cs
      else ' ' :: collapseSpacesAux true cs
    else c :: collapseSpacesAux false cs

/-- `re.sub(r"\s+", " ", text)`. -/
def collapseSpaces (cs : List Char) : List Char :=
  collapseSpacesAux false cs

/-- `Rouge155Tokenizer._preprocess_text` (tokenize.py lines 99-110):
surround hyphens with spaces, replace non-alphanumeric-non-hyphen characters
with spaces, strip leading/trailing whitespace, collapse whitespace runs. -/
def preprocessText (text : String) : String :=
  let s1 := text.data.flatMap (fun c => if c = '-' then [' ', '-', ' '] else [c])
  let s2 := s1.map (fun c => if isKeepChar c then c else ' ')
  let s3 := s2.dropWhile isPySpace
  let s4 := (s3.reverse.dropWhile isPySpace).reverse
  String.mk (collapseSpaces s4)

/-- Python `str.split()` with no argument: split on whitespace runs,
discarding empty pieces. -/
def pySplit (s : String) : List String :=
  ((s.data.splitOnP isPySpace).filter (· ≠ [])).map String.mk

/-- `re.match("^[a-z0-9\$]", word)`: the first character is a lowercase
letter, a digit, or `$`. -/
def startsLowerDigitDollar (s : String) : Bool :=
  match s.data with
  | [] => false
  | c :: _ => ('a' ≤ c && c ≤ 'z') || ('0' ≤ c && c ≤ '9') || c = '$'

/-- `str.lower` character map.  At its use site the word only contains
characters from `[A-Za-z0-9\-]` (everything else was replaced by
`_preprocess_text`), on which Python's `lower` agrees with ASCII
lowercasing, which is what Lean's `Char.toLower` implements. -/
def pyLower (s : String) : String :=
  String.mk (s.data.map Char.toLower)

/-- `Rouge155Tokenizer._preprocess_word` (tokenize.py lines 112-123):
lowercase; drop stopwords (when enabled); drop words not starting with a
lowercase letter, digit or `$`; stem survivors (when enabled).
`none` models Python `None` (a dropped word). -/
def preprocessWord (cfg : Rouge155Tokenizer) (word : String) : Option String :=
  let w0 := pyLower word
  let w1 : Option String :=
    match cfg.remove_stopwords with
    | some mem => if mem w0 then none else some w0
    | none => some w0
  let w2 : Option String :=
    match w1 with
    | some s => if s ≠ "" && !startsLowerDigitDollar s then none else some s
    | none => none
  match w2 with
  | some s =>
    if s ≠ "" then
      match cfg.stem with
      | some f => some (f s)
      | none => some s
    else some s
  | none => none

/-- One sentence of the loop in `tokenize_text` (tokenize.py lines 185-188):
`[self._preprocess_word(w) for w in sentence.split() if self._preprocess_word(w)]`
(the comprehension keeps exactly the truthy, i.e. non-`None` non-empty,
results). -/
def tokenizeSentence (cfg : Rouge155Tokenizer) (sentence : String) : List String :=
  ((pySplit (preprocessText sentence)).filterMap (preprocessWord cfg)).filter (· ≠ "")

/-- The document built by `tokenize_text` before any truncation. -/
def rawDoc (cfg : Rouge155Tokenizer) (text : String) : Doc :=
  (cfg.split_sentences text).map (tokenizeSentence cfg)

/-- `len(s.encode('utf8'))` for a list of characters. -/
def bytesLen (cs : List Char) : Nat :=
  (cs.map Char.utf8Size).sum

/-- `len(s.encode('utf8'))` for a string. -/
def utf8Len (s : String) : Nat := bytesLen s.data

/-- `word.encode('utf8')[:k].decode()`: keep the characters of the first `k`
UTF-8 bytes.  Python's bytes slice clamps at the end of the string; a strict
`decode` raises (`none`) exactly when the cut would split a multi-byte
character. -/
def utf8TakeBytes : List Char → Nat → Option (List Char)
  | _, 0 => some []
  | [], _ + 1 => some []
  | c :: cs, k + 1 =>
    if c.utf8Size ≤ k + 1 then (utf8TakeBytes cs (k + 1 - c.utf8Size)).map (c :: ·)
    else none

/-- The inner `for word in sentence` loop of `Rouge155Tokenizer._truncate_bytes`
(tokenize.py lines 139-147).  Returns the words kept for this sentence, the
updated `byte_len`, and whether the loop exited via `break` (in Python the
truncated sentence is appended to the output only on `break`). -/
def truncWords (limit : Nat) : Nat → List String → Option (List String × Nat × Bool)
  | byteLen, [] => some ([], byteLen, false)
  | byteLen, w :: ws =>
    let newByteLen := byteLen + utf8Len w
    if limit ≤ newByteLen then
      match utf8TakeBytes w.data (limit - byteLen) with
      | none => none
      | some cs => some ([String.mk cs], limit, true)
    else
      match truncWords limit newByteLen ws with
      | none => none
      | some (kept, bl, br) => some (w :: kept, bl, br)

/-- The outer `for sentence in tokenized_text` loop of
`Rouge155Tokenizer._truncate_bytes` (tokenize.py lines 133-153), carrying
the running `byte_len`; the loop stops (`break`) once `byte_len` reaches the
limit. -/
def truncSentences (limit : Nat) : Nat → Doc → Option Doc
  | _, [] => some []
  | byteLen, s :: rest =>
    let newByteLen := byteLen + utf8Len (String.join s)
    if limit < newByteLen then
      match truncWords limit byteLen s with
      | none => none
      | some (kept, bl, br) =>
        let out : Doc := if br then [kept] else []
        if bl = limit then some out
        else (truncSentences limit bl rest).map (out ++ ·)
    else
      if newByteLen = limit then some [s]
      else (truncSentences limit newByteLen rest).map (s :: ·)

/-- `Rouge155Tokenizer._truncate_bytes` (tokenize.py lines 125-154). -/
def truncateBytes (cfg : Rouge155Tokenizer) (tt : Doc) : Option Doc :=
  truncSentences cfg.byte_limit 0 tt

/-- `Rouge155Tokenizer._truncate_words` (tokenize.py lines 156-175): walk
sentences accumulating token counts; the sentence that would cross the word
limit is cut to the remaining budget and the loop stops. -/
def truncateWordsLoop (limit : Nat) : Nat → Doc → Doc
  | _, [] => []
  | wordLen, s :: rest =>
    let newWordLen := wordLen + s.length
    if limit < newWordLen then [s.take (limit - wordLen)]
    else
      if newWordLen = limit then [s]
      else s :: truncateWordsLoop limit newWordLen rest

/-- `Rouge155Tokenizer._truncate_words` entry point. -/
def truncateWords (cfg : Rouge155Tokenizer) (tt : Doc) : Doc :=
  truncateWordsLoop cfg.word_limit 0 tt

/-- `Rouge155Tokenizer.tokenize_text` (tokenize.py lines 177-194): split into
sentences, normalize each, then apply byte truncation and word truncation
when the respective limit is non-zero (Python truthiness of the int). -/
def tokenizeText (cfg : Rouge155Tokenizer) (text : String) : Option Doc :=
  let tt := rawDoc cfg text
  let tt1 : Option Doc := if cfg.byte_limit ≠ 0 then truncateBytes cfg tt else some tt
  tt1.map (fun t => if cfg.word_limit ≠ 0 then truncateWords cfg t else t)

/-! ## Scorer (`src/rouge/rouge.py`, class `Rouge`) -/

/-- Fields of `Rouge.__init__`: the tokenizer, the maximal n-gram order `N`,
the scoring formula (the Python string `"A"` or `"B"`), and the
recall/precision trade-off weight `alpha`. -/
structure Rouge where
  tokenizer : Rouge155Tokenizer
  N : Nat
  scoring : String
  alpha : ℚ

/-- `Rouge._tokenize`: delegate to the tokenizer. -/
def Rouge.tok (R : Rouge) (text : String) : Option Doc :=
  tokenizeText R.tokenizer text

/-- Sequence a list of fallible computations; `none` as soon as one fails
(models Python raising out of a loop or comprehension). -/
def optionList {α : Type} : List (Option α) → Option (List α)
  | [] => some []
  | none :: _ => none
  | some a :: rest => (optionList rest).map (a :: ·)

/-- `Rouge._ngram_tokenize` (rouge.py lines 151-159): flatten the sentences
and emit every window of `n` consecutive tokens joined by a single space.
`List.range (L + 1 - n)` models Python `range(len - n + 1)`, which is empty
when `n > len`. -/
def ngramTokenize (tokenizedSentences : Doc) (n : Nat) : List String :=
  let tokenizedText := tokenizedSentences.flatten
  (List.range (tokenizedText.length + 1 - n)).map
    (fun i => String.intercalate " " ((tokenizedText.drop i).take n))

/-- The per-reference match count of `Rouge.n_score` (rouge.py lines 81-83):
`{ngram: min(ref_counter[ngram], cand_counter[ngram]) for ngram in
cand_counter.keys() if ngram in ref_counter}` summed over its values.
A `Counter` built from a list is modelled by the list itself: its keys are
the deduplicated elements, its counts are occurrence counts, and the sum of
its values is the list length. -/
def matchesMin (cand ref : List String) : Nat :=
  (((cand.dedup).filter (fun g => g ∈ ref)).map
    (fun g => min (ref.count g) (cand.count g))).sum

/-- Banker's rounding to 5 decimal places, `round(x, 5)`, idealized over `ℚ`
(Python rounds the nearest-double value; on the exact rationals of this
development the two agree). -/
def pyRound5 (q : ℚ) : ℚ :=
  let m := q * 100000
  let fl : ℤ := Int.floor m
  let r := m - fl
  (if r < 1/2 then (fl : ℚ)
   else if 1/2 < r then (fl : ℚ) + 1
   else if Even fl then (fl : ℚ) else (fl : ℚ) + 1) / 100000

/-- The score assembly of `Rouge.n_score` (rouge.py lines 93-95): recall and
precision guard a zero denominator with `if ... else 0`; the F-score is
computed only when there are matches.  `none` models the unguarded
`ZeroDivisionError` when the F-score denominator is zero. -/
def rpf (alpha : ℚ) (candsCount refsCount matchesCount : Nat) : Option (ℚ × ℚ × ℚ) :=
  let recallVal : ℚ := if refsCount ≠ 0 then (matchesCount : ℚ) / refsCount else 0
  let precisionVal : ℚ := if candsCount ≠ 0 then (matchesCount : ℚ) / candsCount else 0
  if matchesCount ≠ 0 then
    if (1 - alpha) * precisionVal + alpha * recallVal = 0 then none
    else some (recallVal, precisionVal,
      (precisionVal * recallVal) / ((1 - alpha) * precisionVal + alpha * recallVal))
  else some (recallVal, precisionVal, 0)

/-- `round(...)` applied to each of R, P, F when storing
`results[f"ROUGE-{n}"]` (rouge.py line 98). -/
def roundTriple (t : ℚ × ℚ × ℚ) : ℚ × ℚ × ℚ :=
  (pyRound5 t.1, pyRound5 t.2.1, pyRound5 t.2.2)

/-- The key `lambda x: x[2]/x[1]` of the `max` call in scoring mode `"B"`
(rouge.py line 91); triples are `(cands_count, refs_count, matches_count)`. -/
def bKey (t : Nat × Nat × Nat) : ℚ := (t.2.2 : ℚ) / (t.2.1 : ℚ)

/-- Python `max(list, key=...)`: the first element whose key is maximal
(later elements replace the running best only on a strictly greater key). -/
def pyMaxByKey (t : Nat × Nat × Nat) (ts : List (Nat × Nat × Nat)) : Nat × Nat × Nat :=
  ts.foldl (fun best x => if bKey best < bKey x then x else best) t

/-- One iteration of the `for n in range(1, self.N+1)` loop of `Rouge.n_score`
(rouge.py lines 71-98), on already-tokenized documents.  In mode `"B"` the
`max` key divides by a reference's n-gram total, so a reference with zero
n-grams raises `ZeroDivisionError` (`none`); `max` of an empty sequence also
raises. -/
def nScoreOne (R : Rouge) (candDoc : Doc) (refDocs : List Doc) (n : Nat) :
    Option (ℚ × ℚ × ℚ) :=
  let candNgrams := ngramTokenize candDoc n
  let candCount := candNgrams.length
  let refsCount := refDocs.map (fun ref => (ngramTokenize ref n).length)
  let candsCount := refDocs.map (fun _ => candCount)
  let matchesCount := refDocs.map (fun ref => matchesMin candNgrams (ngramTokenize ref n))
  if R.scoring = "A" then
    (rpf R.alpha candsCount.sum refsCount.sum matchesCount.sum).map roundTriple
  else if R.scoring = "B" then
    match candsCount.zip (refsCount.zip matchesCount) with
    | [] => none
    | t :: ts =>
      if refsCount.any (· = 0) then none
      else
        let best := pyMaxByKey t ts
        (rpf R.alpha best.1 best.2.1 best.2.2).map roundTriple
  else none

/-- `Rouge.n_score` (rouge.py lines 58-100).  The result list entry at index
`n - 1` models the dictionary value at key `"ROUGE-n"`, as the triple
`(R, P, F)`. -/
def nScore (R : Rouge) (refTexts : List String) (candText : String) :
    Option (List (ℚ × ℚ × ℚ)) :=
  match R.tok candText with
  | none => none
  | some candDoc =>
    match optionList (refTexts.map R.tok) with
    | none => none
    | some refDocs =>
      optionList ((List.range R.N).map (fun i => nScoreOne R candDoc refDocs (i + 1)))

/-! ### Incremental scoring -/

/-- The `self.incremental` dictionary.  `ref_counters`/`refs_count` are keyed
by `n` in Python (`1..N`); here index `n - 1` holds the entry for `n`.  Each
per-reference counter is modelled by its list of n-grams. -/
structure Incremental where
  ref_counters : List (List (List String))
  refs_count : List Nat
  prev_tokens : List String
deriving DecidableEq

/-- `Rouge.reset_incremental` (rouge.py lines 131-138): rebuild the
per-`n` reference counters and totals from the reference texts, and
initialize `prev_tokens` with `["" for _ in range(self.N)]`.  The previous
state (`old`) is overwritten without being read. -/
def resetIncremental (R : Rouge) (old : Incremental) (refTexts : List String) :
    Option Incremental :=
  match optionList (refTexts.map R.tok) with
  | none => none
  | some refDocs =>
    let refCounters := (List.range R.N).map
      (fun i => refDocs.map (fun d => ngramTokenize d (i + 1)))
    some { ref_counters := refCounters
           refs_count := refCounters.map (fun cs => (cs.map List.length).sum)
           prev_tokens := List.replicate R.N "" }

/-- `self.incremental['prev_tokens'][-n:]` followed by
`self._ngram_tokenize([...], n)` (rouge.py line 115): Python's `[-n:]` is
the last `n` elements, i.e. `drop (length - n)`. -/
def incrementalNewNgrams (prevTokens : List String) (n : Nat) : List String :=
  ngramTokenize [prevTokens.drop (prevTokens.length - n)] n

/-- The nested match loop of `Rouge.n_score_incremental` (rouge.py lines
117-121): for every reference counter and every new n-gram, add one when the
n-gram is a key of that counter. -/
def incrementalMatches (refCounters : List (List String)) (newNgrams : List String) : Nat :=
  refCounters.foldl
    (fun acc ref => newNgrams.foldl (fun a g => if g ∈ ref then a + 1 else a) acc) 0

/-- `Rouge.n_score_incremental` (rouge.py lines 102-129).  Returns the
updated state and, per `n` (index `n - 1` models key `"ROUGE-n"`), the
recall `{"R": ...}` — `some` inside the list; an increment with no tokens
returns `{"R": None}` for every `n` (`none` inside the list).  The outer
`Option` is `none` when the code raises (a tokenizer decode error, or
`ZeroDivisionError` when `refs_count[n]` is zero). -/
def nScoreIncremental (R : Rouge) (st : Incremental) (newText : String) :
    Option (Incremental × List (Option ℚ)) :=
  match R.tok newText with
  | none => none
  | some doc =>
    let newTokens := doc.flatten
    if newTokens = [] then
      some (st, (List.range R.N).map (fun _ => none))
    else
      let prev := st.prev_tokens ++ newTokens
      let entries : Option (List ℚ) := optionList ((List.range R.N).map (fun i =>
        let rc := st.refs_count.getD i 0
        if rc = 0 then none
        else some ((incrementalMatches (st.ref_counters.getD i [])
          (incrementalNewNgrams prev (i + 1)) : ℚ) / (rc : ℚ))))
      match entries with
      | none => none
      | some es => some ({ st with prev_tokens := prev }, es.map some)

/-- Run a reset followed by a sequence of increments, collecting the per-step
result lists (used to state the incremental claims). -/
def runSteps (R : Rouge) : Incremental → List String → Option (List (List (Option ℚ)))
  | _, [] => some []
  | st, t :: ts =>
    match nScoreIncremental R st t with
    | none => none
    | some (st1, rs) => (runSteps R st1 ts).map (rs :: ·)

/-- `reset_incremental` on `refTexts` followed by one `n_score_incremental`
call per element of `incs`. -/
def runIncrements (R : Rouge) (refTexts incs : List String) :
    Option (List (List (Option ℚ))) :=
  match resetIncremental R ⟨[], [], []⟩ refTexts with
  | none => none
  | some st => runSteps R st incs

/-! ## Concrete configurations used by the claims -/

/-- `Rouge155Tokenizer(byte_limit=0, word_limit=0, stem=False, sw_removal=False,
sentence_split="SPL")`: no truncation, no stemming, no stopword removal. -/
def tok0 : Rouge155Tokenizer := ⟨0, 0, none, none, splitSPL⟩

/-- A tokenizer with byte limit 3 and word limit 1 (no stemming/stopwords). -/
def tokBW : Rouge155Tokenizer := ⟨3, 1, none, none, splitSPL⟩

/-- A tokenizer with byte limit 3 only (no word limit, no stemming/stopwords). -/
def tokB3 : Rouge155Tokenizer := ⟨3, 0, none, none, splitSPL⟩

/-- `Rouge(tok0, n=1, scoring="A", alpha=0.5)`. -/
def RA1 : Rouge := ⟨tok0, 1, "A", 1/2⟩

/-- `Rouge(tok0, n=1, scoring="B", alpha=0.5)`. -/
def RB1 : Rouge := ⟨tok0, 1, "B", 1/2⟩

/-- `Rouge(tok0, n=2, scoring="A", alpha=0.5)`. -/
def RA2 : Rouge := ⟨tok0, 2, "A", 1/2⟩

/-- `Rouge(tok0, n=4, scoring="A", alpha=0.5)`: the `from_rouge155_args`
defaults with stemming and stopword removal disabled. -/
def RA4 : Rouge := ⟨tok0, 4, "A", 1/2⟩

/-- Total UTF-8 byte length of a Document: the tokens of each sentence are
concatenated with no delimiter (`len("".join(sentence).encode('utf8'))`),
and sentences are summed. -/
def docBytes (d : Doc) : Nat :=
  (d.map (fun s => utf8Len (String.join s))).sum

/-- Every character of the string occupies a single UTF-8 byte (i.e. the
string is ASCII).  The reference pipeline only ever produces such tokens:
`_preprocess_text` replaces every character outside `[A-Za-z0-9\- ]` with a
space, and nltk's Porter stemmer maps such words to such words. -/
def OneByte (s : String) : Prop :=
  ∀ c ∈ s.data, c.utf8Size = 1

end RougeModel

namespace RougeModel

/-! ## Helper lemmas -/

theorem sum_map_add_distrib {β : Type} (l : List β) (f g : β → ℕ) :
    (l.map (fun b => f b + g b)).sum = (l.map f).sum + (l.map g).sum := by
  induction l with
  | nil => rfl
  | cons a l ih => simp [ih]; omega

theorem sum_map_swap {α β : Type} (l₁ : List α) (l₂ : List β) (f : α → β → ℕ) :
    (l₁.map (fun a => (l₂.map (f a)).sum)).sum
      = (l₂.map (fun b => (l₁.map (fun a => f a b)).sum)).sum := by
  induction l₁ with
  | nil => simp
  | cons a l ih => simp [ih, sum_map_add_distrib]

theorem countP_eq_sum_indicator {α : Type} (p : α → Bool) (l : List α) :
    l.countP p = (l.map (fun x => if p x then 1 else 0)).sum := by
  induction l with
  | nil => rfl
  | cons a l ih =>
    by_cases h : p a = true <;>
      simp [List.countP_cons, h, ih, Nat.add_comm]

theorem foldl_if_mem_eq_countP (ref : List String) (gs : List String) (a : ℕ) :
    gs.foldl (fun acc g => if g ∈ ref then acc + 1 else acc) a
      = a + gs.countP (fun g => decide (g ∈ ref)) := by
  induction gs generalizing a with
  | nil => simp
  | cons g gs ih =>
    by_cases h : g ∈ ref <;> simp [h, ih, List.countP_cons] <;> omega

theorem foldl_refs_eq_sum (newNgrams : List String) (rs : List (List String)) :
    ∀ (a : ℕ),
    rs.foldl (fun acc ref => newNgrams.foldl (fun a g => if g ∈ ref then a + 1 else a) acc) a
      = a + (rs.map (fun ref => newNgrams.countP (fun g => decide (g ∈ ref)))).sum := by
  induction rs with
  | nil => simp
  | cons r rs ih =>
    intro a
    simp only [List.foldl_cons, List.map_cons, List.sum_cons]
    rw [ih, foldl_if_mem_eq_countP]; omega

theorem sum_map_filter_of_zero (l : List String) (p : String → Bool) (f : String → ℕ)
    (h : ∀ x ∈ l, p x = false → f x = 0) :
    ((l.filter p).map f).sum = (l.map f).sum := by
  induction l with
  | nil => rfl
  | cons a l ih =>
    have ih' := ih (fun x hx => h x (List.mem_cons_of_mem _ hx))
    by_cases hp : p a = true
    · simp [List.filter_cons, hp, ih']
    · have hfa := h a (List.mem_cons_self _ _) (Bool.not_eq_true _ ▸ hp)
      simp [List.filter_cons, hp, ih', hfa]

theorem optionList_isSome {α : Type} (xs : List (Option α))
    (h : ∀ x ∈ xs, x.isSome) : (optionList xs).isSome := by
  induction xs with
  | nil => rfl
  | cons x xs ih =>
    cases hx : x with
    | none => exact absurd (hx ▸ h x (List.mem_cons_self _ _)) (by simp)
    | some a =>
      have := ih (fun y hy => h y (List.mem_cons_of_mem _ hy))
      obtain ⟨l, hl⟩ := Option.isSome_iff_exists.1 this
      simp [optionList, hl]

theorem matchesMin_left_nil (ref : List String) : matchesMin [] ref = 0 := by
  simp [matchesMin]

theorem matchesMin_right_nil (cand : List String) : matchesMin cand [] = 0 := by
  simp [matchesMin]

theorem matchesMin_ne_zero (cand ref : List String) (h : matchesMin cand ref ≠ 0) :
    cand ≠ [] ∧ ref ≠ [] := by
  constructor
  · rintro rfl; exact h (matchesMin_left_nil ref)
  · rintro rfl; exact h (matchesMin_right_nil cand)

/-- When there are matches in mode `"A"`, both pooled denominators are
non-zero. -/
theorem matches_sum_facts (candNgrams : List String) (refDocs : List Doc) (n : ℕ)
    (h : (refDocs.map (fun ref => matchesMin candNgrams (ngramTokenize ref n))).sum ≠ 0) :
    (refDocs.map (fun ref => (ngramTokenize ref n).length)).sum ≠ 0
    ∧ (refDocs.map (fun _ => candNgrams.length)).sum ≠ 0 := by
  have hex : ∃ ref ∈ refDocs, matchesMin candNgrams (ngramTokenize ref n) ≠ 0 := by
    by_contra hall
    push_neg at hall
    exact h (List.sum_eq_zero (by
      intro x hx
      obtain ⟨ref, href, rfl⟩ := List.mem_map.1 hx
      exact hall ref href))
  obtain ⟨ref, href, hm⟩ := hex
  have hfacts := matchesMin_ne_zero _ _ hm
  constructor
  · intro hz
    have : (ngramTokenize ref n).length = 0 := by
      have := (List.sum_eq_zero_iff.1 hz) ((ngramTokenize ref n).length)
        (List.mem_map.2 ⟨ref, href, rfl⟩)
      exact this
    exact hfacts.2 (List.eq_nil_of_length_eq_zero this)
  · intro hz
    have : candNgrams.length = 0 := by
      have := (List.sum_eq_zero_iff.1 hz) candNgrams.length
        (List.mem_map.2 ⟨ref, href, rfl⟩)
      exact this
    exact hfacts.1 (List.eq_nil_of_length_eq_zero this)

/-- With `0 ≤ α ≤ 1`, the score assembly can only divide by zero when its
denominators vanish, which the guards rule out: `rpf` never fails provided
non-zero matches imply non-zero denominators. -/
theorem rpf_isSome (α : ℚ) (candsCount refsCount matchesCount : ℕ)
    (hα0 : 0 ≤ α) (hα1 : α ≤ 1)
    (himp : matchesCount ≠ 0 → refsCount ≠ 0 ∧ candsCount ≠ 0) :
    (rpf α candsCount refsCount matchesCount).isSome := by
  by_cases hm : matchesCount = 0
  · simp [rpf, hm]
  · obtain ⟨hr, hc⟩ := himp hm
    have hmQ : (0 : ℚ) < (matchesCount : ℚ) := by
      exact_mod_cast Nat.pos_of_ne_zero hm
    have hrQ : (0 : ℚ) < (refsCount : ℚ) := by
      exact_mod_cast Nat.pos_of_ne_zero hr
    have hcQ : (0 : ℚ) < (candsCount : ℚ) := by
      exact_mod_cast Nat.pos_of_ne_zero hc
    have hp : (0 : ℚ) < (matchesCount : ℚ) / (candsCount : ℚ) := div_pos hmQ hcQ
    have hrec : (0 : ℚ) < (matchesCount : ℚ) / (refsCount : ℚ) := div_pos hmQ hrQ
    have hden : (0 : ℚ) < (1 - α) * ((matchesCount : ℚ) / (candsCount : ℚ))
        + α * ((matchesCount : ℚ) / (refsCount : ℚ)) := by
      rcases lt_or_eq_of_le hα0 with hpos | heq
      · exact add_pos_of_nonneg_of_pos
          (mul_nonneg (by linarith) hp.le) (mul_pos hpos hrec)
      · rw [← heq]; simpa using hp
    simp only [rpf, hm, hr, hc, ne_eq, not_false_eq_true, if_true, if_pos]
    rw [if_neg hden.ne']
    rfl

/-! ### Character-level lemmas for the tokenizer pipeline -/

theorem charOfNat_toNat (n : ℕ) (h : n ≤ 122) : (Char.ofNat n).toNat = n := by
  have hv : n.isValidChar := Or.inl (by omega)
  simp only [Char.ofNat, hv, dif_pos, Char.ofNatAux, Char.toNat]
  rfl

theorem utf8Size_one_of_toNat_le (c : Char) (h : c.toNat ≤ 127) : c.utf8Size = 1 := by
  unfold Char.utf8Size
  have hv : c.val ≤ 0x7F := UInt32.le_def.2 (by simpa [Char.toNat] using h)
  simp [hv]

theorem toLower_toNat_le (c : Char) (h : c.toNat ≤ 127) : (Char.toLower c).toNat ≤ 127 := by
  unfold Char.toLower
  simp only []
  by_cases hc : c.toNat ≥ 65 ∧ c.toNat ≤ 90
  · rw [if_pos hc, charOfNat_toNat _ (by omega)]
    omega
  · rw [if_neg hc]
    exact h

theorem keepChar_toNat_le (c : Char) (h : isKeepChar c = true) : c.toNat ≤ 127 := by
  simp only [isKeepChar, Bool.or_eq_true, Bool.and_eq_true, decide_eq_true_eq] at h
  rcases h with ((⟨_, h2⟩ | ⟨_, h2⟩) | ⟨_, h2⟩) | h2
  · exact le_trans (UInt32.le_def.1 h2) (by decide)
  · exact le_trans (UInt32.le_def.1 h2) (by decide)
  · exact le_trans (UInt32.le_def.1 h2) (by decide)
  · rw [h2]; decide

theorem collapseSpacesAux_chars (cs : List Char) :
    ∀ (b : Bool) (c : Char), c ∈ collapseSpacesAux b cs → c = ' ' ∨ c ∈ cs := by
  induction cs with
  | nil => intro b c hc; exact absurd hc (by simp [collapseSpacesAux])
  | cons x xs ih =>
    intro b c hc
    unfold collapseSpacesAux at hc
    by_cases hx : isPySpace x = true
    · rw [if_pos hx] at hc
      by_cases hb : b = true
      · rw [if_pos hb] at hc
        rcases ih true c hc with h | h
        · exact Or.inl h
        · exact Or.inr (List.mem_cons_of_mem _ h)
      · rw [if_neg hb] at hc
        rcases List.mem_cons.1 hc with h | h
        · exact Or.inl h
        · rcases ih true c h with h2 | h2
          · exact Or.inl h2
          · exact Or.inr (List.mem_cons_of_mem _ h2)
    · rw [if_neg hx] at hc
      rcases List.mem_cons.1 hc with h | h
      · exact Or.inr (h ▸ List.mem_cons_self _ _)
      · rcases ih false c h with h2 | h2
        · exact Or.inl h2
        · exact Or.inr (List.mem_cons_of_mem _ h2)

theorem preprocessText_chars (t : String) :
    ∀ c ∈ (preprocessText t).data, c.toNat ≤ 127 := by
  intro c hc
  unfold preprocessText at hc
  simp only [String.mk] at hc
  rcases collapseSpacesAux_chars _ _ _ hc with h | h
  · rw [h]; decide
  · have h5 : c ∈ ((t.data.flatMap (fun c => if c = '-' then [' ', '-', ' '] else [c])).map
        (fun c => if isKeepChar c then c else ' ')) := by
      have h6 := List.mem_reverse.1 h
      have h7 := List.dropWhile_sublist (p := isPySpace) |>.subset h6
      have h8 := List.mem_reverse.1 h7
      exact List.dropWhile_sublist (p := isPySpace) |>.subset h8
    obtain ⟨c0, _, hc0⟩ := List.mem_map.1 h5
    by_cases hk : isKeepChar c0 = true
    · rw [if_pos hk] at hc0
      exact hc0 ▸ keepChar_toNat_le c0 hk
    · rw [if_neg hk] at hc0
      rw [← hc0]; decide

theorem mem_of_mem_splitOnP (p : Char → Bool) :
    ∀ (l piece : List Char), piece ∈ l.splitOnP p → ∀ c ∈ piece, c ∈ l := by
  intro l
  induction l with
  | nil =>
    intro piece hp c hc
    rw [List.splitOnP_nil] at hp
    simp only [List.mem_singleton] at hp
    exact absurd hc (hp ▸ List.not_mem_nil c)
  | cons x xs ih =>
    intro piece hp c hc
    rw [List.splitOnP_cons] at hp
    by_cases hx : p x = true
    · rw [if_pos hx] at hp
      rcases List.mem_cons.1 hp with h | h
      · exact absurd hc (h ▸ List.not_mem_nil c)
      · exact List.mem_cons_of_mem _ (ih piece h c hc)
    · rw [if_neg hx] at hp
      cases hsp : xs.splitOnP p with
      | nil => exact absurd hsp (List.splitOnP_ne_nil _ _)
      | cons h0 t0 =>
        rw [hsp] at hp
        simp only [List.modifyHead] at hp
        rcases List.mem_cons.1 hp with h | h
        · subst h
          rcases List.mem_cons.1 hc with h2 | h2
          · exact h2 ▸ List.mem_cons_self _ _
          · exact List.mem_cons_of_mem _
              (ih h0 (hsp ▸ List.mem_cons_self _ _) c h2)
        · exact List.mem_cons_of_mem _
            (ih piece (hsp ▸ List.mem_cons_of_mem _ h) c hc)

theorem pySplit_chars (s : String) :
    ∀ w ∈ pySplit s, ∀ c ∈ w.data, c ∈ s.data := by
  intro w hw c hc
  unfold pySplit at hw
  obtain ⟨piece, hpmem, rfl⟩ := List.mem_map.1 hw
  exact mem_of_mem_splitOnP isPySpace s.data piece (List.mem_filter.1 hpmem).1 c hc

/-- Under a stemmer producing only single-byte characters, every token
`_preprocess_word` keeps is ASCII (source words come from the normalized
sentence, whose characters are single-byte). -/
theorem preprocessWord_oneByte (cfg : Rouge155Tokenizer) (word t : String)
    (hstem : ∀ f, cfg.stem = some f → ∀ s, OneByte (f s))
    (hword : ∀ c ∈ word.data, c.toNat ≤ 127)
    (ht : preprocessWord cfg word = some t) : OneByte t := by
  have hlower : ∀ c ∈ (pyLower word).data, c.toNat ≤ 127 := by
    intro c hc
    obtain ⟨c0, hc0, rfl⟩ := List.mem_map.1 hc
    exact toLower_toNat_le c0 (hword c0 hc0)
  have hlowerOB : OneByte (pyLower word) :=
    fun c hc => utf8Size_one_of_toNat_le c (hlower c hc)
  unfold preprocessWord at ht
  cases hrs : cfg.remove_stopwords with
  | none =>
    rw [hrs] at ht
    simp only [] at ht
    by_cases hne : pyLower word ≠ "" ∧ !startsLowerDigitDollar (pyLower word) = true
    · rw [if_pos (by simpa using hne)] at ht
      exact absurd ht (by simp)
    · rw [if_neg (by simpa using hne)] at ht
      dsimp only at ht
      by_cases hne2 : pyLower word ≠ ""
      · rw [if_pos hne2] at ht
        cases hst : cfg.stem with
        | none =>
          rw [hst] at ht
          exact Option.some_injective _ ht ▸ hlowerOB
        | some f =>
          rw [hst] at ht
          exact Option.some_injective _ ht ▸ hstem f hst (pyLower word)
      · rw [if_neg hne2] at ht
        exact Option.some_injective _ ht ▸ hlowerOB
  | some mem =>
    rw [hrs] at ht
    simp only [] at ht
    by_cases hm : mem (pyLower word) = true
    · rw [if_pos hm] at ht
      exact absurd ht (by simp)
    · rw [if_neg hm] at ht
      simp only [] at ht
      by_cases hne : pyLower word ≠ "" ∧ !startsLowerDigitDollar (pyLower word) = true
      · rw [if_pos (by simpa using hne)] at ht
        exact absurd ht (by simp)
      · rw [if_neg (by simpa using hne)] at ht
        dsimp only at ht
        by_cases hne2 : pyLower word ≠ ""
        · rw [if_pos hne2] at ht
          cases hst : cfg.stem with
          | none =>
            rw [hst] at ht
            exact Option.some_injective _ ht ▸ hlowerOB
          | some f =>
            rw [hst] at ht
            exact Option.some_injective _ ht ▸ hstem f hst (pyLower word)
        · rw [if_neg hne2] at ht
          exact Option.some_injective _ ht ▸ hlowerOB

theorem tokenizeSentence_oneByte (cfg : Rouge155Tokenizer) (sentence : String)
    (hstem : ∀ f, cfg.stem = some f → ∀ s, OneByte (f s)) :
    ∀ t ∈ tokenizeSentence cfg sentence, OneByte t := by
  intro t ht
  unfold tokenizeSentence at ht
  obtain ⟨ht1, _⟩ := List.mem_filter.1 ht
  obtain ⟨word, hwmem, hw⟩ := List.mem_filterMap.1 ht1
  exact preprocessWord_oneByte cfg word t hstem
    (fun c hc => preprocessText_chars sentence c (pySplit_chars _ word hwmem c hc)) hw

theorem rawDoc_oneByte (cfg : Rouge155Tokenizer) (text : String)
    (hstem : ∀ f, cfg.stem = some f → ∀ s, OneByte (f s)) :
    ∀ s ∈ rawDoc cfg text, ∀ t ∈ s, OneByte t := by
  intro s hs t ht
  obtain ⟨sent, _, rfl⟩ := List.mem_map.1 hs
  exact tokenizeSentence_oneByte cfg sent hstem t ht

/-- Tokens `tokenize_text` builds before truncation are never empty: the
sentence comprehension keeps only truthy results. -/
theorem rawDoc_tokens_ne (cfg : Rouge155Tokenizer) (text : String) :
    ∀ s ∈ rawDoc cfg text, ∀ t ∈ s, t ≠ "" := by
  intro s hs t ht
  obtain ⟨sent, _, rfl⟩ := List.mem_map.1 hs
  unfold tokenizeSentence at ht
  simpa using (List.mem_filter.1 ht).2

/-! ### Byte-length lemmas -/

theorem bytesLen_append (a b : List Char) :
    bytesLen (a ++ b) = bytesLen a + bytesLen b := by
  simp [bytesLen]

theorem utf8Len_append (a b : String) :
    utf8Len (a ++ b) = utf8Len a + utf8Len b := by
  simp [utf8Len, String.data_append, bytesLen]

theorem utf8Len_join (l : List String) :
    utf8Len (String.join l) = (l.map utf8Len).sum := by
  have aux : ∀ (acc : String), utf8Len (l.foldl (fun r s => r ++ s) acc)
      = utf8Len acc + (l.map utf8Len).sum := by
    induction l with
    | nil => simp
    | cons s l ih =>
      intro acc
      simp only [List.foldl_cons, List.map_cons, List.sum_cons]
      rw [ih, utf8Len_append]
      omega
  have := aux ""
  simpa [String.join, utf8Len, bytesLen] using this

theorem utf8TakeBytes_bytesLen (cs : List Char) :
    ∀ (k : ℕ) (out : List Char), utf8TakeBytes cs k = some out →
      k ≤ bytesLen cs → bytesLen out = k := by
  induction cs with
  | nil =>
    intro k out h hk
    have hk0 : k = 0 := by simpa [bytesLen] using hk
    subst hk0
    simp only [utf8TakeBytes] at h
    rw [← Option.some_injective _ h]
    rfl
  | cons c cs ih =>
    intro k out h hk
    match k, h with
    | 0, h =>
      simp only [utf8TakeBytes] at h
      rw [← Option.some_injective _ h]
      rfl
    | k + 1, h =>
      simp only [utf8TakeBytes] at h
      by_cases hsz : c.utf8Size ≤ k + 1
      · rw [if_pos hsz] at h
        obtain ⟨out0, hout0, rfl⟩ := Option.map_eq_some'.1 h
        have hkcs : k + 1 ≤ c.utf8Size + bytesLen cs := by
          simpa [bytesLen] using hk
        have hrec := ih _ _ hout0 (by omega)
        have hcons : bytesLen (c :: out0) = c.utf8Size + bytesLen out0 := by
          simp [bytesLen]
        omega
      · rw [if_neg hsz] at h
        exact absurd h (by simp)

theorem utf8TakeBytes_ne_nil (cs : List Char) (k : ℕ) (out : List Char)
    (h : utf8TakeBytes cs k = some out) (hk : k ≠ 0) (hcs : cs ≠ []) : out ≠ [] := by
  match cs, k with
  | [], _ => exact absurd rfl hcs
  | c :: cs, 0 => exact absurd rfl hk
  | c :: cs, k + 1 =>
    simp only [utf8TakeBytes] at h
    by_cases hsz : c.utf8Size ≤ k + 1
    · rw [if_pos hsz] at h
      obtain ⟨out0, _, rfl⟩ := Option.map_eq_some'.1 h
      simp
    · rw [if_neg hsz] at h
      exact absurd h (by simp)

theorem utf8TakeBytes_isSome (cs : List Char) (h1 : ∀ c ∈ cs, c.utf8Size = 1) :
    ∀ (k : ℕ), (utf8TakeBytes cs k).isSome := by
  induction cs with
  | nil => intro k; cases k <;> rfl
  | cons c cs ih =>
    intro k
    cases k with
    | zero => rfl
    | succ k =>
      have hc := h1 c (List.mem_cons_self _ _)
      simp only [utf8TakeBytes, hc]
      rw [if_pos (by omega)]
      have := ih (fun x hx => h1 x (List.mem_cons_of_mem _ hx)) (k + 1 - 1)
      obtain ⟨o, ho⟩ := Option.isSome_iff_exists.1 this
      rw [ho]
      rfl

/-! ### Truncation lemmas -/

theorem truncWords_isSome (limit : ℕ) (ws : List String) :
    ∀ (byteLen : ℕ), (∀ w ∈ ws, OneByte w) → (truncWords limit byteLen ws).isSome := by
  induction ws with
  | nil => intro byteLen _; rfl
  | cons w ws ih =>
    intro byteLen h
    simp only [truncWords]
    by_cases hle : limit ≤ byteLen + utf8Len w
    · rw [if_pos hle]
      obtain ⟨cs, hcs⟩ := Option.isSome_iff_exists.1
        (utf8TakeBytes_isSome w.data (h w (List.mem_cons_self _ _)) (limit - byteLen))
      rw [hcs]
      rfl
    · rw [if_neg hle]
      obtain ⟨⟨kept, bl, br⟩, hr⟩ := Option.isSome_iff_exists.1
        (ih (byteLen + utf8Len w) (fun x hx => h x (List.mem_cons_of_mem _ hx)))
      rw [hr]
      rfl

theorem truncWords_bl (limit : ℕ) (ws : List String) :
    ∀ (byteLen : ℕ) (kept : List String) (bl : ℕ) (br : Bool),
      byteLen < limit →
      truncWords limit byteLen ws = some (kept, bl, br) →
      (br = true ∧ bl = limit) ∨ (br = false ∧ bl < limit) := by
  induction ws with
  | nil =>
    intro byteLen kept bl br hlt h
    simp only [truncWords, Option.some.injEq, Prod.mk.injEq] at h
    obtain ⟨_, h2, h3⟩ := h
    exact Or.inr ⟨h3.symm, h2 ▸ hlt⟩
  | cons w ws ih =>
    intro byteLen kept bl br hlt h
    simp only [truncWords] at h
    by_cases hle : limit ≤ byteLen + utf8Len w
    · rw [if_pos hle] at h
      cases htb : utf8TakeBytes w.data (limit - byteLen) with
      | none => rw [htb] at h; exact absurd h (by simp)
      | some cs =>
        rw [htb] at h
        simp only [Option.some.injEq, Prod.mk.injEq] at h
        exact Or.inl ⟨h.2.2.symm, h.2.1.symm⟩
    · rw [if_neg hle] at h
      cases htw : truncWords limit (byteLen + utf8Len w) ws with
      | none => rw [htw] at h; exact absurd h (by simp)
      | some r =>
        obtain ⟨kept0, bl0, br0⟩ := r
        rw [htw] at h
        simp only [Option.some.injEq, Prod.mk.injEq] at h
        obtain ⟨_, h2, h3⟩ := h
        exact h2 ▸ h3 ▸ ih (byteLen + utf8Len w) kept0 bl0 br0 (by omega) htw

theorem truncWords_break_exact (limit : ℕ) (ws : List String) :
    ∀ (byteLen : ℕ) (kept : List String) (bl : ℕ) (br : Bool),
      byteLen < limit →
      limit ≤ byteLen + (ws.map utf8Len).sum →
      truncWords limit byteLen ws = some (kept, bl, br) →
      br = true ∧ byteLen + (kept.map utf8Len).sum = limit := by
  induction ws with
  | nil =>
    intro byteLen kept bl br hlt hcross _
    simp only [List.map_nil, List.sum_nil] at hcross
    omega
  | cons w ws ih =>
    intro byteLen kept bl br hlt hcross h
    simp only [truncWords] at h
    by_cases hle : limit ≤ byteLen + utf8Len w
    · rw [if_pos hle] at h
      cases htb : utf8TakeBytes w.data (limit - byteLen) with
      | none => rw [htb] at h; exact absurd h (by simp)
      | some cs =>
        rw [htb] at h
        simp only [Option.some.injEq, Prod.mk.injEq] at h
        obtain ⟨h1, _, h3⟩ := h
        have hbytes : bytesLen cs = limit - byteLen :=
          utf8TakeBytes_bytesLen w.data (limit - byteLen) cs htb (by
            have : utf8Len w = bytesLen w.data := rfl
            omega)
        refine ⟨h3.symm, ?_⟩
        rw [← h1]
        have : utf8Len (String.mk cs) = bytesLen cs := rfl
        simp only [List.map_cons, List.map_nil, List.sum_cons, List.sum_nil, this]
        omega
    · rw [if_neg hle] at h
      cases htw : truncWords limit (byteLen + utf8Len w) ws with
      | none => rw [htw] at h; exact absurd h (by simp)
      | some r =>
        obtain ⟨kept0, bl0, br0⟩ := r
        rw [htw] at h
        simp only [Option.some.injEq, Prod.mk.injEq] at h
        obtain ⟨h1, h2, h3⟩ := h
        have hrec := ih (byteLen + utf8Len w) kept0 bl0 br0 (by omega) (by
          simp only [List.map_cons, List.sum_cons] at hcross
          omega) htw
        refine ⟨h3 ▸ hrec.1, ?_⟩
        rw [← h1]
        simp only [List.map_cons, List.sum_cons]
        omega

theorem truncWords_tokens (limit : ℕ) (ws : List String) :
    ∀ (byteLen : ℕ) (kept : List String) (bl : ℕ) (br : Bool),
      byteLen < limit →
      (∀ w ∈ ws, w ≠ "") →
      truncWords limit byteLen ws = some (kept, bl, br) →
      ∀ t ∈ kept, t ≠ "" := by
  induction ws with
  | nil =>
    intro byteLen kept bl br _ _ h
    simp only [truncWords, Option.some.injEq, Prod.mk.injEq] at h
    intro t ht
    exact absurd ht (h.1 ▸ List.not_mem_nil t)
  | cons w ws ih =>
    intro byteLen kept bl br hlt hne h
    simp only [truncWords] at h
    by_cases hle : limit ≤ byteLen + utf8Len w
    · rw [if_pos hle] at h
      cases htb : utf8TakeBytes w.data (limit - byteLen) with
      | none => rw [htb] at h; exact absurd h (by simp)
      | some cs =>
        rw [htb] at h
        simp only [Option.some.injEq, Prod.mk.injEq] at h
        obtain ⟨h1, _, _⟩ := h
        intro t ht
        rw [← h1] at ht
        rcases List.mem_singleton.1 ht with rfl
        have hw := hne w (List.mem_cons_self _ _)
        have hdata : w.data ≠ [] := by
          intro hd
          exact hw (by cases w with | mk d => simp only at hd; rw [hd])
        have := utf8TakeBytes_ne_nil w.data (limit - byteLen) cs htb (by omega) hdata
        intro hmk
        exact this (by simpa using congrArg String.data hmk)
    · rw [if_neg hle] at h
      cases htw : truncWords limit (byteLen + utf8Len w) ws with
      | none => rw [htw] at h; exact absurd h (by simp)
      | some r =>
        obtain ⟨kept0, bl0, br0⟩ := r
        rw [htw] at h
        simp only [Option.some.injEq, Prod.mk.injEq] at h
        obtain ⟨h1, _, _⟩ := h
        intro t ht
        rw [← h1] at ht
        rcases List.mem_cons.1 ht with rfl | hmem
        · exact hne t (List.mem_cons_self _ _)
        · exact ih (byteLen + utf8Len w) kept0 bl0 br0 (by omega)
            (fun x hx => hne x (List.mem_cons_of_mem _ hx)) htw t hmem

theorem truncSentences_isSome (limit : ℕ) (ss : Doc) :
    ∀ (byteLen : ℕ), (∀ s ∈ ss, ∀ w ∈ s, OneByte w) →
      (truncSentences limit byteLen ss).isSome := by
  induction ss with
  | nil => intro _ _; rfl
  | cons s rest ih =>
    intro byteLen h
    simp only [truncSentences]
    by_cases h1 : limit < byteLen + utf8Len (String.join s)
    · rw [if_pos h1]
      obtain ⟨⟨kept, bl, br⟩, hkb⟩ := Option.isSome_iff_exists.1
        (truncWords_isSome limit s byteLen (h s (List.mem_cons_self _ _)))
      rw [hkb]
      dsimp only
      by_cases h2 : bl = limit
      · rw [if_pos h2]; rfl
      · rw [if_neg h2]
        obtain ⟨o, ho⟩ := Option.isSome_iff_exists.1
          (ih bl (fun x hx => h x (List.mem_cons_of_mem _ hx)))
        rw [ho]
        rfl
    · rw [if_neg h1]
      by_cases h2 : byteLen + utf8Len (String.join s) = limit
      · rw [if_pos h2]; rfl
      · rw [if_neg h2]
        obtain ⟨o, ho⟩ := Option.isSome_iff_exists.1
          (ih (byteLen + utf8Len (String.join s))
            (fun x hx => h x (List.mem_cons_of_mem _ hx)))
        rw [ho]
        rfl

theorem truncSentences_exact (limit : ℕ) (ss : Doc) :
    ∀ (byteLen : ℕ) (out : Doc),
      byteLen < limit →
      limit < byteLen + (ss.map (fun s => utf8Len (String.join s))).sum →
      truncSentences limit byteLen ss = some out →
      byteLen + (out.map (fun s => utf8Len (String.join s))).sum = limit := by
  induction ss with
  | nil =>
    intro byteLen out hlt hcross _
    simp only [List.map_nil, List.sum_nil] at hcross
    omega
  | cons s rest ih =>
    intro byteLen out hlt hcross h
    simp only [truncSentences] at h
    by_cases h1 : limit < byteLen + utf8Len (String.join s)
    · rw [if_pos h1] at h
      cases htw : truncWords limit byteLen s with
      | none => rw [htw] at h; exact absurd h (by simp)
      | some r =>
        obtain ⟨kept, bl, br⟩ := r
        rw [htw] at h
        have hjoin : utf8Len (String.join s) = (s.map utf8Len).sum := utf8Len_join s
        have hbreak := truncWords_break_exact limit s byteLen kept bl br hlt
          (by omega) htw
        have hbl : bl = limit :=
          ((truncWords_bl limit s byteLen kept bl br hlt htw).resolve_right
            (fun hc => by rw [hbreak.1] at hc; exact absurd hc.1 (by simp))).2
        have hout : out = [kept] := by
          simpa [hbreak.1, hbl] using h.symm
        subst hout
        simp only [List.map_cons, List.map_nil, List.sum_cons, List.sum_nil]
        rw [utf8Len_join kept]
        omega
    · rw [if_neg h1] at h
      by_cases h2 : byteLen + utf8Len (String.join s) = limit
      · rw [if_pos h2] at h
        rw [← Option.some_injective _ h]
        simpa using h2
      · rw [if_neg h2] at h
        cases hrec : truncSentences limit (byteLen + utf8Len (String.join s)) rest with
        | none => rw [hrec] at h; exact absurd h (by simp)
        | some out0 =>
          rw [hrec] at h
          simp only [Option.map_some', Option.some.injEq] at h
          have := ih (byteLen + utf8Len (String.join s)) out0 (by omega) (by
            simp only [List.map_cons, List.sum_cons] at hcross
            omega) hrec
          rw [← h]
          simp only [List.map_cons, List.sum_cons]
          omega

theorem truncSentences_tokens (limit : ℕ) (ss : Doc) :
    ∀ (byteLen : ℕ) (out : Doc),
      byteLen < limit →
      (∀ s ∈ ss, ∀ w ∈ s, w ≠ "") →
      truncSentences limit byteLen ss = some out →
      ∀ s ∈ out, ∀ w ∈ s, w ≠ "" := by
  induction ss with
  | nil =>
    intro byteLen out _ _ h s hs
    simp only [truncSentences, Option.some.injEq] at h
    exact absurd hs (h ▸ List.not_mem_nil s)
  | cons s0 rest ih =>
    intro byteLen out hlt hne h s hs w hw
    simp only [truncSentences] at h
    by_cases h1 : limit < byteLen + utf8Len (String.join s0)
    · rw [if_pos h1] at h
      cases htw : truncWords limit byteLen s0 with
      | none => rw [htw] at h; exact absurd h (by simp)
      | some r =>
        obtain ⟨kept, bl, br⟩ := r
        rw [htw] at h
        dsimp only at h
        have hkept : ∀ t ∈ kept, t ≠ "" :=
          truncWords_tokens limit s0 byteLen kept bl br hlt
            (hne s0 (List.mem_cons_self _ _)) htw
        by_cases h2 : bl = limit
        · rw [if_pos h2] at h
          rw [← Option.some_injective _ h] at hs
          cases br with
          | true =>
            rw [if_pos rfl] at hs
            rcases List.mem_singleton.1 hs with rfl
            exact hkept w hw
          | false =>
            rw [if_neg (by simp)] at hs
            exact absurd hs (List.not_mem_nil s)
        · rw [if_neg h2] at h
          have hbl : bl < limit := by
            rcases truncWords_bl limit s0 byteLen kept bl br hlt htw with h3 | h3
            · exact absurd h3.2 h2
            · exact h3.2
          cases hrec : truncSentences limit bl rest with
          | none => rw [hrec] at h; exact absurd h (by simp)
          | some out0 =>
            rw [hrec] at h
            simp only [Option.map_some', Option.some.injEq] at h
            rw [← h] at hs
            rcases List.mem_append.1 hs with hmem | hmem
            · cases br with
              | true =>
                rw [if_pos rfl] at hmem
                rcases List.mem_singleton.1 hmem with rfl
                exact hkept w hw
              | false =>
                rw [if_neg (by simp)] at hmem
                exact absurd hmem (List.not_mem_nil s)
            · exact ih bl out0 hbl
                (fun x hx => hne x (List.mem_cons_of_mem _ hx)) hrec s hmem w hw
    · rw [if_neg h1] at h
      by_cases h2 : byteLen + utf8Len (String.join s0) = limit
      · rw [if_pos h2] at h
        rw [← Option.some_injective _ h] at hs
        rcases List.mem_singleton.1 hs with rfl
        exact hne s (List.mem_cons_self _ _) w hw
      · rw [if_neg h2] at h
        cases hrec : truncSentences limit (byteLen + utf8Len (String.join s0)) rest with
        | none => rw [hrec] at h; exact absurd h (by simp)
        | some out0 =>
          rw [hrec] at h
          simp only [Option.map_some', Option.some.injEq] at h
          rw [← h] at hs
          rcases List.mem_cons.1 hs with rfl | hmem
          · exact hne s (List.mem_cons_self _ _) w hw
          · exact ih (byteLen + utf8Len (String.join s0)) out0 (by omega)
              (fun x hx => hne x (List.mem_cons_of_mem _ hx)) hrec s hmem w hw

theorem truncateWordsLoop_tokens (limit : ℕ) (ss : Doc) :
    ∀ (wordLen : ℕ),
      (∀ s ∈ ss, ∀ w ∈ s, w ≠ "") →
      ∀ s ∈ truncateWordsLoop limit wordLen ss, ∀ w ∈ s, w ≠ "" := by
  induction ss with
  | nil =>
    intro wordLen _ s hs
    exact absurd hs (by simp [truncateWordsLoop])
  | cons s0 rest ih =>
    intro wordLen hne s hs w hw
    simp only [truncateWordsLoop] at hs
    by_cases h1 : limit < wordLen + s0.length
    · rw [if_pos h1] at hs
      rcases List.mem_singleton.1 hs with rfl
      exact hne s0 (List.mem_cons_self _ _) w (List.take_subset _ _ hw)
    · rw [if_neg h1] at hs
      by_cases h2 : wordLen + s0.length = limit
      · rw [if_pos h2] at hs
        rcases List.mem_singleton.1 hs with rfl
        exact hne s (List.mem_cons_self _ _) w hw
      · rw [if_neg h2] at hs
        rcases List.mem_cons.1 hs with rfl | hmem
        · exact hne s (List.mem_cons_self _ _) w hw
        · exact ih (wordLen + s0.length)
            (fun x hx => hne x (List.mem_cons_of_mem _ hx)) s hmem w hw

/-- In scoring mode `"A"` with `0 ≤ α ≤ 1`, one loop iteration of `n_score`
never raises. -/
theorem nScoreOne_A_isSome (R : Rouge) (candDoc : Doc) (refDocs : List Doc) (n : ℕ)
    (hA : R.scoring = "A") (hα0 : 0 ≤ R.alpha) (hα1 : R.alpha ≤ 1) :
    (nScoreOne R candDoc refDocs n).isSome := by
  have hsome := rpf_isSome R.alpha
    (refDocs.map (fun _ => (ngramTokenize candDoc n).length)).sum
    (refDocs.map (fun ref => (ngramTokenize ref n).length)).sum
    (refDocs.map (fun ref => matchesMin (ngramTokenize candDoc n) (ngramTokenize ref n))).sum
    hα0 hα1
    (fun hm => matches_sum_facts (ngramTokenize candDoc n) refDocs n hm)
  obtain ⟨v, hv⟩ := Option.isSome_iff_exists.1 hsome
  simp only [nScoreOne, hA]
  rw [hv]
  rfl

/-! ## Claim theorems: concrete evaluations -/

/-- Claim C1 (code bug).  The telescoping property — the sum of the
per-increment recall numerators over the stored reference total equals the
one-shot average-mode recall — fails on the code, although
`n_score_incremental`'s docstring promises it.  With reference `"a"` and the
text `"a a"` fed as two one-word increments, each increment scores matches 1
over total 1, so the incremental sum is `(1+1)/1 = 2`, while `n_score`'s
average-mode recall on the full text is `min(2,1)/1 = 1`. -/
theorem c1_incremental_sum_ne_batch_recall :
    runIncrements RA1 ["a"] ["a", "a"] = some [[some 1], [some 1]]
    ∧ nScore RA1 ["a"] "a a" = some [(1, 1/2, 66667/100000)]
    ∧ ((1 : ℚ) + 1) / 1 ≠ 1 := by
  refine ⟨?_, ?_, by norm_num⟩
  · have key : runIncrements RA1 ["a"] ["a", "a"]
        = some [[some (((1:ℕ):ℚ)/((1:ℕ):ℚ))], [some (((1:ℕ):ℚ)/((1:ℕ):ℚ))]] := by rfl
    rw [key]; norm_num
  · have key : nScore RA1 ["a"] "a a"
        = optionList [(rpf ((1:ℚ)/2) 2 1 1).map roundTriple] := by rfl
    rw [key, show rpf ((1:ℚ)/2) 2 1 1 = some (1, 1/2, 2/3) from by norm_num [rpf]]
    show some [roundTriple ((1:ℚ), (1:ℚ)/2, (2:ℚ)/3)] = _
    rw [show roundTriple ((1:ℚ), (1:ℚ)/2, (2:ℚ)/3) = (1, 1/2, 66667/100000) from by
      norm_num [roundTriple, pyRound5, Int.floor_eq_iff]]

/-- Claim C2 (code bug).  The claim (and the docstring's telescoping
property) requires the new n-grams of an increment to be all windows ending
in the newly appended tokens — `len(new_tokens)+n-1` final tokens, i.e. `k`
new n-grams for `k` new tokens.  The code instead builds n-grams from
`prev_tokens[-n:]`, the last `n` tokens only, yielding exactly one n-gram
per increment: with reference `"a b"` and the single two-token increment
`"a b"`, for `n = 1` the code counts only `["b"]` (one n-gram, recall `1/2`)
where the claim requires two (`["a", "b"]`, recall `1`). -/
theorem c2_new_ngrams_only_last_window :
    runIncrements RA1 ["a b"] ["a b"] = some [[some (1/2)]]
    ∧ incrementalNewNgrams ["", "a", "b"] 1 = ["b"]
    ∧ (incrementalNewNgrams ["", "a", "b"] 1).length ≠ 2 := by
  refine ⟨?_, by decide, by decide⟩
  have key : runIncrements RA1 ["a b"] ["a b"]
      = some [[some (((1:ℕ):ℚ)/((2:ℕ):ℚ))]] := by rfl
  rw [key]; norm_num

/-- Claim C3, counterexample.  The claim says a new n-gram contributes at
most 1 to the matches count — membership in the union of the per-reference
tables.  The code's nested loop adds 1 per reference table containing the
n-gram: with the two references `"a"` and `"a"` and the one-token increment
`"a"`, the single new 1-gram scores 2 matches (recall `2/2 = 1`), not 1. -/
theorem c3_matches_counted_per_reference :
    incrementalMatches [["a"], ["a"]] ["a"] = 2
    ∧ runIncrements RA1 ["a", "a"] ["a"] = some [[some 1]]
    ∧ (2 : ℕ) ≠ 1 := by
  refine ⟨by decide, ?_, by decide⟩
  have key : runIncrements RA1 ["a", "a"] ["a"]
      = some [[some (((2:ℕ):ℚ)/((2:ℕ):ℚ))]] := by rfl
  rw [key]; norm_num

/-- Claim C4, counterexample.  In scoring mode `"B"` the `max` key
`x[2]/x[1]` divides by a reference's n-gram total with no guard: an empty
reference text (zero 1-grams) makes `n_score` raise `ZeroDivisionError`
(modelled `none`) instead of returning zero scores. -/
theorem c4_mode_b_zero_reference_raises :
    nScore RB1 [""] "a" = none := by rfl

/-- Claim C4, amended.  In aggregation mode `"A"` (with `0 ≤ α ≤ 1`, as in
every ROUGE configuration) all division-by-zero denominators in `n_score`
are handled locally by returning 0 and never by raising: the call always
returns a result, and with empty candidate and reference token streams every
metric is `(R, P, F) = (0, 0, 0)`.  In mode `"B"` this holds only when every
reference has at least one n-gram of each size `n ≤ N`; a reference with
zero n-grams makes the best-model selection key raise `ZeroDivisionError`
(see the counterexample). -/
theorem c4_amended_mode_a_never_raises :
    (∀ (R : Rouge) (refTexts : List String) (candText : String),
      R.scoring = "A" → 0 ≤ R.alpha → R.alpha ≤ 1 →
      (R.tok candText).isSome → (∀ r ∈ refTexts, (R.tok r).isSome) →
      (nScore R refTexts candText).isSome)
    ∧ nScore RA4 [""] "" = some [(0, 0, 0), (0, 0, 0), (0, 0, 0), (0, 0, 0)] := by
  constructor
  · intro R refs cand hA hα0 hα1 hc hr
    obtain ⟨cd, hcd⟩ := Option.isSome_iff_exists.1 hc
    have hrds : (optionList (refs.map R.tok)).isSome := optionList_isSome _ (by
      intro x hx
      obtain ⟨r, hrmem, rfl⟩ := List.mem_map.1 hx
      exact hr r hrmem)
    obtain ⟨rds, hrds2⟩ := Option.isSome_iff_exists.1 hrds
    unfold nScore
    rw [hcd, hrds2]
    exact optionList_isSome _ (by
      intro x hx
      obtain ⟨i, _, rfl⟩ := List.mem_map.1 hx
      exact nScoreOne_A_isSome R cd rds (i + 1) hA hα0 hα1)
  · have key : nScore RA4 [""] ""
        = optionList [(rpf ((1:ℚ)/2) 0 0 0).map roundTriple,
            (rpf ((1:ℚ)/2) 0 0 0).map roundTriple,
            (rpf ((1:ℚ)/2) 0 0 0).map roundTriple,
            (rpf ((1:ℚ)/2) 0 0 0).map roundTriple] := by rfl
    rw [key, show rpf ((1:ℚ)/2) 0 0 0 = some (0, 0, 0) from by norm_num [rpf]]
    show some [roundTriple ((0:ℚ), (0:ℚ), (0:ℚ)), roundTriple ((0:ℚ), (0:ℚ), (0:ℚ)),
      roundTriple ((0:ℚ), (0:ℚ), (0:ℚ)), roundTriple ((0:ℚ), (0:ℚ), (0:ℚ))] = _
    rw [show roundTriple ((0:ℚ), (0:ℚ), (0:ℚ)) = (0, 0, 0) from by
      norm_num [roundTriple, pyRound5]]

/-- Witness for `c4_amended_mode_a_never_raises` at a concrete input. -/
theorem c4_amended_mode_a_never_raises_witness :
    (nScore RA4 ["a b"] "b c").isSome :=
  c4_amended_mode_a_never_raises.1 RA4 ["a b"] "b c" rfl
    (by norm_num [RA4]) (by norm_num [RA4]) (by decide)
    (by intro r hr; fin_cases hr <;> decide)

/-- Claim C5, counterexample.  The claim quantifies over every configuration
with byte limit `B > 0`, but when a word limit is also configured the word
truncation runs after byte truncation and can cut the Document below `B`
bytes: with byte limit 3 and word limit 1, text `"a b b c"` (untruncated
byte total 4 > 3) tokenizes to `[["a"]]`, 1 byte ≠ 3. -/
theorem c5_word_limit_breaks_byte_exactness :
    tokenizeText tokBW "a b b c" = some [["a"]]
    ∧ tokBW.byte_limit < docBytes (rawDoc tokBW "a b b c")
    ∧ docBytes [["a"]] ≠ tokBW.byte_limit := by
  refine ⟨by decide, by decide, by decide⟩

/-- Claim C5, amended.  For every configuration with byte limit `B > 0` and
**no word limit**, and every input whose untruncated Document exceeds `B`
bytes, the Document returned by `tokenize_text` (when it returns one) has
total concatenated UTF-8 byte length exactly `B`.  (With a word limit also
configured the word truncation can cut below `B` — see the counterexample.) -/
theorem c5_amended_byte_truncation_exact (cfg : Rouge155Tokenizer) (text : String)
    (doc : Doc) (hB : 0 < cfg.byte_limit) (hW : cfg.word_limit = 0)
    (hdoc : tokenizeText cfg text = some doc)
    (hcross : cfg.byte_limit < docBytes (rawDoc cfg text)) :
    docBytes doc = cfg.byte_limit := by
  unfold tokenizeText at hdoc
  dsimp only at hdoc
  rw [if_pos (by omega : cfg.byte_limit ≠ 0)] at hdoc
  cases htb : truncateBytes cfg (rawDoc cfg text) with
  | none => rw [htb] at hdoc; exact absurd hdoc (by simp)
  | some out =>
    rw [htb] at hdoc
    simp only [Option.map_some', Option.some.injEq, hW] at hdoc
    have hc2 : cfg.byte_limit
        < 0 + ((rawDoc cfg text).map (fun s => utf8Len (String.join s))).sum := by
      simpa [docBytes] using hcross
    have hex := truncSentences_exact cfg.byte_limit (rawDoc cfg text) 0 out hB hc2
      (by unfold truncateBytes at htb; exact htb)
    rw [← hdoc, if_neg (show ¬((0 : ℕ) ≠ 0) from by omega)]
    simp only [docBytes]
    omega

/-- Witness for `c5_amended_byte_truncation_exact` at a concrete input. -/
theorem c5_amended_byte_truncation_exact_witness :
    docBytes [["a", "b", "b"]] = tokB3.byte_limit :=
  c5_amended_byte_truncation_exact tokB3 "a b b c" [["a", "b", "b"]]
    (by decide) (by decide) (by decide) (by decide)

/-- Claim C6 (confirmed).  Byte-limit truncation never fails with a decoding
error through `tokenize_text`: `_preprocess_text` replaces every character
outside `[A-Za-z0-9\- ]` with a space and `lower` keeps ASCII ASCII, so all
tokens reaching `_truncate_bytes` consist of single-byte characters (given
that the stemmer — nltk's Porter stemmer with the WordNet exception tables —
also maps words to single-byte-character words), and a byte cut can then
never split a multi-byte UTF-8 character. -/
theorem c6_byte_truncation_never_decode_errors (cfg : Rouge155Tokenizer)
    (text : String)
    (hstem : ∀ f, cfg.stem = some f → ∀ s, OneByte (f s)) :
    (tokenizeText cfg text).isSome := by
  unfold tokenizeText
  dsimp only
  by_cases hb : cfg.byte_limit ≠ 0
  · rw [if_pos hb]
    have h1 := truncSentences_isSome cfg.byte_limit (rawDoc cfg text) 0
      (rawDoc_oneByte cfg text hstem)
    obtain ⟨o, ho⟩ := Option.isSome_iff_exists.1 h1
    rw [show truncateBytes cfg (rawDoc cfg text) = some o from ho]
    rfl
  · rw [if_neg hb]
    rfl

/-- Witness for `c6_byte_truncation_never_decode_errors` at a concrete
input (stemming disabled). -/
theorem c6_byte_truncation_never_decode_errors_witness :
    (tokenizeText tokB3 "a b").isSome :=
  c6_byte_truncation_never_decode_errors tokB3 "a b"
    (fun f hf => absurd hf (by simp [tokB3]))

/-- Claim C10 (confirmed).  Every token in every sentence of the Document
returned by `tokenize_text` is non-empty, for every configuration: the
sentence comprehension keeps only truthy (non-`None`, non-empty)
normalization results, byte truncation only ever emits a truncated token
with at least one byte of budget left, and word truncation takes prefixes. -/
theorem c10_tokens_nonempty (cfg : Rouge155Tokenizer) (text : String) (doc : Doc)
    (hdoc : tokenizeText cfg text = some doc) :
    ∀ s ∈ doc, ∀ t ∈ s, t ≠ "" := by
  unfold tokenizeText at hdoc
  dsimp only at hdoc
  have step2 : ∀ (mid : Doc), (∀ s ∈ mid, ∀ t ∈ s, t ≠ "") →
      ∀ s ∈ (if cfg.word_limit ≠ 0 then truncateWords cfg mid else mid),
        ∀ t ∈ s, t ≠ "" := by
    intro mid hmid
    by_cases hw : cfg.word_limit ≠ 0
    · rw [if_pos hw]
      exact truncateWordsLoop_tokens cfg.word_limit mid 0 hmid
    · rw [if_neg hw]
      exact hmid
  by_cases hb : cfg.byte_limit ≠ 0
  · rw [if_pos hb] at hdoc
    cases htb : truncateBytes cfg (rawDoc cfg text) with
    | none => rw [htb] at hdoc; exact absurd hdoc (by simp)
    | some mid =>
      rw [htb] at hdoc
      simp only [Option.map_some', Option.some.injEq] at hdoc
      have hmid : ∀ s ∈ mid, ∀ t ∈ s, t ≠ "" :=
        truncSentences_tokens cfg.byte_limit (rawDoc cfg text) 0 mid
          (Nat.pos_of_ne_zero hb) (rawDoc_tokens_ne cfg text)
          (by unfold truncateBytes at htb; exact htb)
      exact hdoc ▸ step2 mid hmid
  · rw [if_neg hb] at hdoc
    simp only [Option.map_some', Option.some.injEq] at hdoc
    exact hdoc ▸ step2 (rawDoc cfg text) (rawDoc_tokens_ne cfg text)

/-- Witness for `c10_tokens_nonempty` at a concrete input. -/
theorem c10_tokens_nonempty_witness : ("a" : String) ≠ "" :=
  c10_tokens_nonempty tok0 "a b" [["a", "b"]] (by decide)
    ["a", "b"] (by decide) "a" (by decide)

/-- Claim C7 (confirmed).  With references `["a a a a", "a"]` and candidate
`"a a"` (no stemming/stopword removal/truncation, `n = 1`, `alpha = 0.5`):
average mode pools counts, recall `(2+1)/(4+1) = 0.6`; best mode picks the
reference maximizing match/ref-count (the second, `1/1`), recall `1.0`; the
two modes differ. -/
theorem c7_average_vs_best_divergence :
    nScore RA1 ["a a a a", "a"] "a a" = some [(3/5, 3/4, 66667/100000)]
    ∧ nScore RB1 ["a a a a", "a"] "a a" = some [(1, 1/2, 66667/100000)]
    ∧ ((3 : ℚ)/5 ≠ 1) := by
  refine ⟨?_, ?_, by norm_num⟩
  · have key : nScore RA1 ["a a a a", "a"] "a a"
        = optionList [(rpf ((1:ℚ)/2) 4 5 3).map roundTriple] := by rfl
    rw [key, show rpf ((1:ℚ)/2) 4 5 3 = some (3/5, 3/4, 2/3) from by norm_num [rpf]]
    show some [roundTriple ((3:ℚ)/5, (3:ℚ)/4, (2:ℚ)/3)] = _
    rw [show roundTriple ((3:ℚ)/5, (3:ℚ)/4, (2:ℚ)/3) = (3/5, 3/4, 66667/100000) from by
      norm_num [roundTriple, pyRound5, Int.floor_eq_iff]]
  · have key : nScore RB1 ["a a a a", "a"] "a a"
        = optionList [(rpf ((1:ℚ)/2) (pyMaxByKey (2,4,2) [(2,1,1)]).1
            (pyMaxByKey (2,4,2) [(2,1,1)]).2.1 (pyMaxByKey (2,4,2) [(2,1,1)]).2.2).map
            roundTriple] := by rfl
    rw [key, show pyMaxByKey (2,4,2) [(2,1,1)] = (2,1,1) from by norm_num [pyMaxByKey, bKey]]
    rw [show rpf ((1:ℚ)/2) 2 1 1 = some (1, 1/2, 2/3) from by norm_num [rpf]]
    show some [roundTriple ((1:ℚ), (1:ℚ)/2, (2:ℚ)/3)] = _
    rw [show roundTriple ((1:ℚ), (1:ℚ)/2, (2:ℚ)/3) = (1, 1/2, 66667/100000) from by
      norm_num [roundTriple, pyRound5, Int.floor_eq_iff]]

/-- Claim C9, counterexample.  `reset_incremental` initializes the carry-over
buffer with `["" for _ in range(self.N)]` — `N` placeholder tokens, not the
claimed `N − 1`: with `N = 2` the buffer has length 2 ≠ 1. -/
theorem c9_buffer_has_n_placeholders :
    resetIncremental RA2 ⟨[], [], []⟩ ["a"]
      = some ⟨[[["a"]], [[]]], [1, 0], ["", ""]⟩
    ∧ (["", ""] : List String).length ≠ RA2.N - 1 := by
  refine ⟨by decide, by decide⟩

/-- Claim C9, amended.  `reset_incremental` initializes the carry-over buffer
with exactly `N` (not `N − 1`) empty-string placeholder tokens, and discards
any prior incremental state: the result is independent of the previous state
and every field is rebuilt from the reference texts alone. -/
theorem c9_amended_reset_state (R : Rouge) (old old' : Incremental)
    (refTexts : List String) :
    resetIncremental R old refTexts = resetIncremental R old' refTexts
    ∧ ∀ st, resetIncremental R old refTexts = some st →
        st.prev_tokens = List.replicate R.N "" := by
  constructor
  · rfl
  · intro st hst
    unfold resetIncremental at hst
    cases h : optionList (refTexts.map R.tok) with
    | none => rw [h] at hst; exact absurd hst (by simp)
    | some docs =>
      rw [h] at hst
      simp only [Option.some.injEq] at hst
      rw [← hst]

/-- Witness for `c9_amended_reset_state` at a concrete input. -/
theorem c9_amended_reset_state_witness :
    Incremental.prev_tokens ⟨[[["a"]], [[]]], [1, 0], ["", ""]⟩
      = List.replicate RA2.N "" := by
  exact (c9_amended_reset_state RA2 ⟨[], [], []⟩ ⟨[[["x"]]], [7], ["y"]⟩ ["a"]).2
    ⟨[[["a"]], [[]]], [1, 0], ["", ""]⟩ (by decide)

/-- Claim C3, amended.  In `n_score_incremental` the matches count is the sum,
over the per-reference n-gram tables, of the number of new n-grams present in
that table (set membership per table, not multiset); equivalently every new
n-gram contributes 1 for each reference table containing it — not at most 1
against the union of the tables. -/
theorem c3_amended_matches_sum_over_references
    (refCounters : List (List String)) (newNgrams : List String) :
    incrementalMatches refCounters newNgrams
      = (newNgrams.map (fun g => refCounters.countP (fun ref => decide (g ∈ ref)))).sum := by
  have step : incrementalMatches refCounters newNgrams
      = (refCounters.map (fun ref => newNgrams.countP (fun g => decide (g ∈ ref)))).sum := by
    unfold incrementalMatches
    rw [foldl_refs_eq_sum]; omega
  rw [step]
  have swap := sum_map_swap refCounters newNgrams
    (fun ref g => if decide (g ∈ ref) then 1 else 0)
  calc (refCounters.map (fun ref => newNgrams.countP (fun g => decide (g ∈ ref)))).sum
      = (refCounters.map (fun ref =>
          (newNgrams.map (fun g => if decide (g ∈ ref) then 1 else 0)).sum)).sum := by
        simp only [countP_eq_sum_indicator]
    _ = (newNgrams.map (fun g =>
          (refCounters.map (fun ref => if decide (g ∈ ref) then 1 else 0)).sum)).sum := swap
    _ = (newNgrams.map (fun g => refCounters.countP (fun ref => decide (g ∈ ref)))).sum := by
        simp only [countP_eq_sum_indicator]

/-- Claim C8 (confirmed).  Batch matching is multiset intersection: the
per-reference match count is the sum over the candidate's distinct n-grams of
the minimum of the two occurrence counts (n-grams absent from the reference
contribute `min(0, ·) = 0`, so the code's `if ngram in ref_counter` filter is
exactly the same sum); concretely for `n = 1`, candidate `"a a b"` and
reference `"a b b"` give match count `min(2,1) + min(1,2) = 2`, recall `2/3`
and precision `2/3` (ROUGE rounds them to `0.66667` in the output). -/
theorem c8_multiset_intersection_matching :
    (∀ cand ref : List String,
      matchesMin cand ref
        = ((cand.dedup).map (fun g => min (ref.count g) (cand.count g))).sum)
    ∧ matchesMin ["a", "a", "b"] ["a", "b", "b"] = 2
    ∧ rpf (1/2) 3 3 2 = some (2/3, 2/3, 2/3)
    ∧ nScore RA1 ["a b b"] "a a b"
        = some [(66667/100000, 66667/100000, 66667/100000)] := by
  refine ⟨?_, by decide, by norm_num [rpf], ?_⟩
  · intro cand ref
    unfold matchesMin
    exact sum_map_filter_of_zero cand.dedup _ _ (fun g _ hg => by
      have : ref.count g = 0 := List.count_eq_zero.2 (by simpa using hg)
      simp [this])
  · have key : nScore RA1 ["a b b"] "a a b"
        = optionList [(rpf ((1:ℚ)/2) 3 3 2).map roundTriple] := by rfl
    rw [key, show rpf ((1:ℚ)/2) 3 3 2 = some (2/3, 2/3, 2/3) from by norm_num [rpf]]
    show some [roundTriple ((2:ℚ)/3, (2:ℚ)/3, (2:ℚ)/3)] = _
    rw [show roundTriple ((2:ℚ)/3, (2:ℚ)/3, (2:ℚ)/3)
        = (66667/100000, 66667/100000, 66667/100000) from by
      norm_num [roundTriple, pyRound5, Int.floor_eq_iff]]

end RougeModel
